import Mathlib

/-!
Shallow embedding of the dense-matrix library in `src/main.rs`.

The Rust code stores `f64` entries and only ever adds, subtracts and
multiplies them (there is no division on entries anywhere in the
program), so the embedding is parametric over a commutative ring `α`:
every theorem below therefore holds in particular for the real numbers
of the specification, and concrete witnesses instantiate `α := ℤ`,
where the kernel can evaluate.

Rust panics are modelled explicitly: the dimension guards of `add`,
`mul` and `det` return `Except.error MatError.dimensionMismatch`
(mirroring the `panic!` calls), out-of-bounds vector indexing inside
`mul` and the `Display` loop returns `MatError.outOfBounds` (mirroring
the `Vec` index panic), and the `i % self.n` remainder in `Display`
returns `MatError.divByZero` when `n = 0` (mirroring the `u32 % 0`
panic).  Entry reads performed by the determinant are written with
`List.getD`; every claim about `det` concerns matrices whose reads are
in bounds, where `getD` coincides with the panicking Rust access.
-/

set_option linter.unusedSectionVars false
set_option linter.unusedVariables false

namespace MatrixOps

variable {α : Type} [CommRing α]

/-- Error conditions of the Rust code: the `panic!` with a dimension
message, a `Vec` index out of bounds, and a `%` by zero. -/
inductive MatError where
  | dimensionMismatch
  | outOfBounds
  | divByZero
deriving DecidableEq, Repr

/-- `struct Matrix { m: u32, n: u32, entries: Vec<f64> }`. -/
structure Matrix (α : Type) where
  m : Nat
  n : Nat
  entries : List α
deriving DecidableEq, Repr

/-- The data-model invariant: the flat buffer holds exactly `m*n` entries. -/
def Matrix.wf (A : Matrix α) : Prop := A.entries.length = A.m * A.n

instance (A : Matrix α) : Decidable A.wf := by unfold Matrix.wf; infer_instance

/-- `Matrix::new(m, n)`: zero-filled `m*n` buffer. -/
def Matrix.new (α : Type) [CommRing α] (m n : Nat) : Matrix α :=
  { m := m, n := n, entries := List.replicate (m * n) 0 }

/-- `get_index`: flat offset `i*n + j` of coordinates `(i, j)`. -/
def Matrix.get_index (A : Matrix α) (i j : Nat) : Nat :=
  i * A.n + j

/-- `get_coords`: inverse mapping `(idx / n, idx % n)`. -/
def Matrix.get_coords (A : Matrix α) (idx : Nat) : Nat × Nat :=
  (idx / A.n, idx % A.n)

/-- The loop of `get_row_vec`/`get_col_vec`: read the buffer at each
listed flat offset and collect the values; `none` models the `Vec`
index panic when some access is out of bounds. -/
def collectReads (A : Matrix α) : List Nat → Option (List α)
  | [] => some []
  | t :: rest =>
    match A.entries.get? t, collectReads A rest with
    | some x, some xs => some (x :: xs)
    | _, _ => none

/-- `get_row_vec(i)`: the `n` entries of row `i`. -/
def Matrix.get_row_vec (A : Matrix α) (i : Nat) : Option (List α) :=
  collectReads A ((List.range A.n).map (fun j => A.get_index i j))

/-- `get_col_vec(j)`: the `m` entries of column `j`. -/
def Matrix.get_col_vec (A : Matrix α) (j : Nat) : Option (List α) :=
  collectReads A ((List.range A.m).map (fun i => A.get_index i j))

/-- `sub_matrix(i, j)`: keep the entries whose flat index decodes (via
`get_coords`) to a row other than `i` and a column other than `j`. -/
def Matrix.sub_matrix (A : Matrix α) (i j : Nat) : Matrix α :=
  { m := A.m - 1
    n := A.n - 1
    entries :=
      ((A.entries.enum.filter (fun p =>
          let rc := A.get_coords p.1
          !(rc.1 == i || rc.2 == j))).map Prod.snd) }

/-- `Matrix::add`: dimension guard then element-wise sum over the
zipped buffers. -/
def Matrix.add (A B : Matrix α) : Except MatError (Matrix α) :=
  if (A.m, A.n) ≠ (B.m, B.n) then
    Except.error MatError.dimensionMismatch
  else
    Except.ok
      { m := A.m
        n := A.n
        entries := (A.entries.zip B.entries).map (fun p => p.1 + p.2) }

/-- The multiply-accumulate of `mul`: pairwise products of the zipped
vectors, folded left to right starting from `0.0`. -/
def dotProd (v w : List α) : α :=
  ((v.zip w).map (fun p => p.1 * p.2)).foldl (fun sum r => sum + r) 0

/-- `res.entries[idx] = x`: in-bounds list update; `none` models the
`Vec` index panic. -/
def setEntry (l : List α) (idx : Nat) (x : α) : Option (List α) :=
  if idx < l.length then some (l.set idx x) else none

/-- The inner loop body of `mul`: read `other`'s column `j`, compute
the dot product with the current row, and store it at
`res.get_index(i, j)` of the accumulated buffer. -/
def mulInner (B : Matrix α) (resn : Nat) (row_vec : List α) (i : Nat)
    (acc : List α) (j : Nat) : Option (List α) :=
  match B.get_col_vec j with
  | none => none
  | some col_vec => setEntry acc (i * resn + j) (dotProd row_vec col_vec)

/-- `Matrix::mul`: the inverted-dimension guard, then the double loop
`for i in 0..self.m { for j in 0..self.n { ... } }` writing dot
products into a fresh `self.m x other.n` matrix.  Note the inner loop
bound is `self.n`, exactly as in the source. -/
def Matrix.mul (A B : Matrix α) : Except MatError (Matrix α) :=
  if (A.m, A.n) ≠ (B.n, B.m) then
    Except.error MatError.dimensionMismatch
  else
    let res := Matrix.new α A.m B.n
    match (List.range A.m).foldlM (fun acc i =>
        match A.get_row_vec i with
        | none => none
        | some row_vec => (List.range A.n).foldlM (mulInner B res.n row_vec i) acc)
        res.entries with
    | some es => Except.ok { m := A.m, n := B.n, entries := es }
    | none => Except.error MatError.outOfBounds

/-- The recursion of `Matrix::det`, made structural on a fuel argument
that the wrapper instantiates with `A.m`; each recursive call is on a
matrix with one row fewer, so the fuel is never exhausted when started
at `A.m`, and the `fuel = 0` fallback of the general case is
unreachable. -/
def detAux (fuel : Nat) (A : Matrix α) : α :=
  if A.m = 0 then 0
  else if A.m = 1 then A.entries.getD 0 0
  else if A.m = 2 then
    let a := A.entries.getD (A.get_index 0 0) 0
    let b := A.entries.getD (A.get_index 0 1) 0
    let c := A.entries.getD (A.get_index 1 0) 0
    let d := A.entries.getD (A.get_index 1 1) 0
    a * d - b * c
  else
    match fuel with
    | 0 => 0
    | f + 1 =>
      (List.range A.n).foldl (fun det col =>
        det + (-1 : α) ^ col * A.entries.getD (A.get_index 0 col) 0
            * detAux f (A.sub_matrix 0 col)) 0

/-- The value computed by the body of `Matrix::det` (after its
squareness guard). -/
def Matrix.detVal (A : Matrix α) : α := detAux A.m A

/-- `Matrix::det`: squareness guard, then the cofactor recursion. -/
def Matrix.det (A : Matrix α) : Except MatError α :=
  if A.m ≠ A.n then Except.error MatError.dimensionMismatch
  else Except.ok A.detVal

/-- The `fmt::Display` impl: `for i in 1..=(m*n)`, read `entries[i-1]`,
then emit `"{} "` or `"{}\n"` according to `i % n == 0`.  The entry
read models the `Vec` index panic, the remainder models the `u32 % 0`
panic; `toStr` stands for Rust's `Display` of the entry. -/
def Matrix.fmt (toStr : α → String) (A : Matrix α) : Except MatError String :=
  (List.range' 1 (A.m * A.n)).foldlM (fun acc i =>
    match A.entries.get? (i - 1) with
    | none => Except.error MatError.outOfBounds
    | some entry =>
      if A.n = 0 then Except.error MatError.divByZero
      else if i % A.n = 0 then Except.ok (acc ++ toStr entry ++ "\n")
      else Except.ok (acc ++ toStr entry ++ " ")) ""

/-- Rust's `{}` formatting of an `f64` holding an integral value prints
it without a decimal point (`1.0` prints as `"1"`); the claims only
render integral entries, where this formatter is exact. -/
def fmtEntry (x : ℤ) : String := toString x

/-- From the spec's words: "space-separated entries", with a space after
all but the last entry of a row. -/
def spaceSep : List String → String
  | [] => ""
  | [s] => s
  | s :: rest => s ++ " " ++ spaceSep rest

/-- Concatenation of the rendered rows. -/
def concatAll : List String → String
  | [] => ""
  | s :: rest => s ++ concatAll rest

/-- The text emitted by one iteration of the `Display` loop at index
`i` (when in bounds and `n > 0`): the entry `entries[i-1]` followed by
a newline at the end of a row and a space otherwise. -/
def pieceFn (toStr : α → String) (A : Matrix α) (i : Nat) : String :=
  toStr (A.entries.getD (i - 1) 0) ++ (if i % A.n = 0 then "\n" else " ")

/-- The rendered entries of row `r`, in column order. -/
def rowPieces (toStr : α → String) (A : Matrix α) (r : Nat) : List String :=
  (List.range A.n).map (fun c => toStr (A.entries.getD (A.get_index r c) 0))

/-- From the spec's words: "m lines of n space-separated entries in
row-major order ... a single newline ending every row, including the
final one". -/
def specRender (toStr : α → String) (A : Matrix α) : String :=
  concatAll ((List.range A.m).map (fun r => spaceSep (rowPieces toStr A r) ++ "\n"))

end MatrixOps

deriving instance DecidableEq for Except

namespace MatrixOps

variable {α : Type} [CommRing α]

/-! ## Helper lemmas -/

lemma foldl_add_eq_sum (n : Nat) (f : Nat → α) :
    (List.range n).foldl (fun acc x => acc + f x) 0 = ∑ x ∈ Finset.range n, f x := by
  induction n with
  | zero => simp
  | succ n ih => rw [List.range_succ, List.foldl_append, ih, Finset.sum_range_succ]; simp

lemma detAux_of_ge_three (f : Nat) (A : Matrix α) (h3 : 3 ≤ A.m) :
    detAux (f + 1) A =
      (List.range A.n).foldl (fun det col =>
        det + (-1 : α) ^ col * A.entries.getD (A.get_index 0 col) 0
            * detAux f (A.sub_matrix 0 col)) 0 := by
  rw [detAux, if_neg (by omega), if_neg (by omega), if_neg (by omega)]

lemma sub_matrix_m (A : Matrix α) (i j : Nat) : (A.sub_matrix i j).m = A.m - 1 := rfl

lemma sub_matrix_n (A : Matrix α) (i j : Nat) : (A.sub_matrix i j).n = A.n - 1 := rfl

lemma zip_add_comm_list : ∀ (l1 l2 : List α),
    (l1.zip l2).map (fun p => p.1 + p.2) = (l2.zip l1).map (fun p => p.1 + p.2)
  | [], l2 => by cases l2 <;> simp
  | a :: l1, [] => by simp
  | a :: l1, b :: l2 => by
      simp only [List.zip_cons_cons, List.map_cons, zip_add_comm_list l1 l2]
      rw [add_comm]

lemma zip_add_getD : ∀ (l1 l2 : List α) (k : Nat), k < l1.length → k < l2.length →
    ((l1.zip l2).map (fun p => p.1 + p.2)).getD k 0 = l1.getD k 0 + l2.getD k 0
  | [], _, k, h1, _ => by simp at h1
  | _ :: _, [], k, _, h2 => by simp at h2
  | a :: l1, b :: l2, 0, _, _ => by simp
  | a :: l1, b :: l2, k + 1, h1, h2 => by
      simpa using zip_add_getD l1 l2 k (by simpa using h1) (by simpa using h2)

/-! ## Claim theorems -/

/-- C5: `det` on square matrices satisfies the three base cases: a 0x0
matrix yields 0, a 1x1 matrix yields its sole entry, a 2x2 matrix
`[[a,b],[c,d]]` yields `a*d - b*c`, and in particular
`det [[1,2],[3,4]] = -2`. -/
theorem det_base_cases (x a b c d : α) :
    (⟨0, 0, []⟩ : Matrix α).det = Except.ok 0 ∧
    (⟨1, 1, [x]⟩ : Matrix α).det = Except.ok x ∧
    (⟨2, 2, [a, b, c, d]⟩ : Matrix α).det = Except.ok (a * d - b * c) ∧
    (⟨2, 2, [1, 2, 3, 4]⟩ : Matrix α).det = Except.ok (1 * 4 - 2 * 3) := by
  refine ⟨rfl, ?_, ?_, ?_⟩
  · simp [Matrix.det, Matrix.detVal, detAux]
  · simp [Matrix.det, Matrix.detVal, detAux, Matrix.get_index]
  · simp [Matrix.det, Matrix.detVal, detAux, Matrix.get_index]

theorem det_base_cases_witness :
    (⟨2, 2, [1, 2, 3, 4]⟩ : Matrix ℤ).det = Except.ok (-2) := by
  have h := (det_base_cases (α := ℤ) 5 1 2 3 4).2.2.2
  simpa using h

/-- C3: `mul` fails with the DimensionMismatch condition exactly when
the inverted-dimension relation `A.m = B.n ∧ A.n = B.m` does not hold
(an in-bounds violation inside the loops is a different failure). -/
theorem mul_dimension_mismatch_iff (A B : Matrix α) :
    A.mul B = Except.error MatError.dimensionMismatch ↔ (A.m ≠ B.n ∨ A.n ≠ B.m) := by
  simp only [Matrix.mul]
  by_cases h : (A.m, A.n) = (B.n, B.m)
  · simp only [Prod.mk.injEq] at h
    rw [if_neg (by simp [h.1, h.2])]
    split <;> simp [h.1, h.2]
  · rw [if_pos h]
    simp only [Prod.mk.injEq, not_and] at h
    simp only [ne_eq, true_iff]
    by_cases h1 : A.m = B.n
    · exact Or.inr (h h1)
    · exact Or.inl h1

/-- C9: `add` is commutative on matrices of equal shape. -/
theorem add_commutes (A B : Matrix α) (hm : A.m = B.m) (hn : A.n = B.n) :
    A.add B = B.add A := by
  rw [Matrix.add, Matrix.add, if_neg (by simp [hm, hn]), if_neg (by simp [hm, hn])]
  simp [hm, hn, zip_add_comm_list]

theorem add_commutes_witness :
    (⟨1, 2, [1, 2]⟩ : Matrix ℤ).add ⟨1, 2, [3, 4]⟩ =
      (⟨1, 2, [3, 4]⟩ : Matrix ℤ).add ⟨1, 2, [1, 2]⟩ :=
  add_commutes _ _ rfl rfl

/-- C10: rendering a matrix with a zero dimension succeeds with the
empty string; the loop body (and with it the `i % n` remainder) is
never evaluated, so no division-by-zero failure occurs. -/
theorem fmt_zero_dimension (toStr : α → String) (A : Matrix α) (h : A.m = 0 ∨ A.n = 0) :
    Matrix.fmt toStr A = Except.ok "" := by
  have hz : A.m * A.n = 0 := by rcases h with h | h <;> simp [h]
  rw [Matrix.fmt, hz]
  rfl

theorem fmt_zero_dimension_witness :
    Matrix.fmt fmtEntry ⟨0, 5, []⟩ = Except.ok "" ∧
      Matrix.fmt fmtEntry ⟨5, 0, []⟩ = Except.ok "" :=
  ⟨fmt_zero_dimension fmtEntry _ (Or.inl rfl), fmt_zero_dimension fmtEntry _ (Or.inr rfl)⟩

/-- C7: on equal shapes `add` returns a matrix of the same dimensions
whose every entry is the sum of the corresponding operand entries; on
differing shapes it fails with the DimensionMismatch condition. -/
theorem add_spec (A B : Matrix α) :
    (A.m = B.m → A.n = B.n → A.wf → B.wf →
      ∃ C, A.add B = Except.ok C ∧ C.m = A.m ∧ C.n = A.n ∧
        ∀ k, k < A.m * A.n →
          C.entries.getD k 0 = A.entries.getD k 0 + B.entries.getD k 0) ∧
    ((A.m ≠ B.m ∨ A.n ≠ B.n) → A.add B = Except.error MatError.dimensionMismatch) := by
  constructor
  · intro hm hn hA hB
    refine ⟨⟨A.m, A.n, (A.entries.zip B.entries).map (fun p => p.1 + p.2)⟩,
      ?_, rfl, rfl, ?_⟩
    · rw [Matrix.add, if_neg (by simp [hm, hn])]
    · intro k hk
      refine zip_add_getD A.entries B.entries k ?_ ?_
      · rw [Matrix.wf] at hA; omega
      · rw [Matrix.wf] at hB; rw [hB, ← hm, ← hn]; omega
  · intro hne
    rw [Matrix.add, if_pos ?_]
    intro heq
    simp only [Prod.mk.injEq] at heq
    rcases hne with hne | hne <;> exact hne (by simp [heq.1, heq.2])

theorem add_spec_witness :
    (∃ C, (⟨1, 2, [1, 2]⟩ : Matrix ℤ).add ⟨1, 2, [10, 20]⟩ = Except.ok C ∧
        C.m = 1 ∧ C.n = 2 ∧
        ∀ k, k < 1 * 2 →
          C.entries.getD k 0 = ([(1 : ℤ), 2]).getD k 0 + ([(10 : ℤ), 20]).getD k 0) ∧
      (⟨1, 2, [1, 2]⟩ : Matrix ℤ).add ⟨2, 2, [1, 2, 3, 4]⟩ =
        Except.error MatError.dimensionMismatch :=
  ⟨(add_spec ⟨1, 2, [1, 2]⟩ ⟨1, 2, [10, 20]⟩).1 rfl rfl (by decide) (by decide),
    (add_spec _ _).2 (Or.inl (by decide))⟩

/-- C4: for every square matrix with `m = n ≥ 3`, `det` returns the
Laplace expansion along row 0, the sum over `col` of
`(-1)^col * entries[0, col] * det(sub_matrix(0, col))`; each recursive
`det` of a minor passes its own squareness guard and returns the same
value the expansion uses. -/
theorem det_laplace_row0 (A : Matrix α) (hsq : A.m = A.n) (h3 : 3 ≤ A.m) :
    A.det = Except.ok (∑ col ∈ Finset.range A.n,
        (-1 : α) ^ col * A.entries.getD (A.get_index 0 col) 0
          * (A.sub_matrix 0 col).detVal) ∧
    ∀ col : Nat, (A.sub_matrix 0 col).det =
      Except.ok ((A.sub_matrix 0 col).detVal) := by
  constructor
  · rw [Matrix.det, if_neg (by omega)]
    congr 1
    rw [Matrix.detVal]
    obtain ⟨f, hf⟩ : ∃ f, A.m = f + 1 := ⟨A.m - 1, by omega⟩
    rw [hf, detAux_of_ge_three f A (by omega), foldl_add_eq_sum]
    refine Finset.sum_congr rfl (fun col _ => ?_)
    rw [Matrix.detVal, sub_matrix_m]
    rw [show A.m - 1 = f from by omega]
  · intro col
    rw [Matrix.det, if_neg (by rw [sub_matrix_m, sub_matrix_n, hsq]; omega)]

theorem det_laplace_row0_witness :
    (⟨3, 3, [2, 1, 3, 0, 1, 4, 5, 2, 1]⟩ : Matrix ℤ).det =
      Except.ok (∑ col ∈ Finset.range 3,
        (-1 : ℤ) ^ col
          * (⟨3, 3, [2, 1, 3, 0, 1, 4, 5, 2, 1]⟩ : Matrix ℤ).entries.getD
              ((⟨3, 3, [2, 1, 3, 0, 1, 4, 5, 2, 1]⟩ : Matrix ℤ).get_index 0 col) 0
          * ((⟨3, 3, [2, 1, 3, 0, 1, 4, 5, 2, 1]⟩ : Matrix ℤ).sub_matrix 0 col).detVal) ∧
    (⟨3, 3, [2, 1, 3, 0, 1, 4, 5, 2, 1]⟩ : Matrix ℤ).det = Except.ok (-9) :=
  ⟨(det_laplace_row0 ⟨3, 3, [2, 1, 3, 0, 1, 4, 5, 2, 1]⟩ rfl (by decide)).1, by decide⟩

/-! ## Submatrix lemmas -/

lemma enumFrom_filter_map_snd {β : Type} (P : Nat → Bool) (d : β) :
    ∀ (l : List β) (s : Nat),
      ((l.enumFrom s).filter (fun p => P p.1)).map Prod.snd =
        ((List.range' s l.length).filter P).map (fun t => l.getD (t - s) d)
  | [], s => by simp
  | a :: l, s => by
      rw [List.enumFrom_cons, List.length_cons, List.range'_succ, List.filter_cons,
        List.filter_cons]
      have ih := enumFrom_filter_map_snd P d l (s + 1)
      have htail : ((List.range' (s + 1) l.length).filter P).map
            (fun t => (a :: l).getD (t - s) d) =
          ((List.range' (s + 1) l.length).filter P).map (fun t => l.getD (t - (s + 1)) d) := by
        refine List.map_congr_left (fun t ht => ?_)
        have hmem := (List.mem_filter.mp ht).1
        have hts : s + 1 ≤ t := (List.mem_range'_1.mp hmem).1
        obtain ⟨u, hu⟩ : ∃ u, t - s = u + 1 := ⟨t - s - 1, by omega⟩
        rw [hu, List.getD_cons_succ]
        congr 1
        omega
      cases hP : P s with
      | true =>
          simp only [hP, if_pos]
          rw [List.map_cons, List.map_cons, ih, ← htail, Nat.sub_self,
            List.getD_cons_zero]
      | false =>
          simp only [if_neg Bool.false_ne_true]
          rw [ih, ← htail]

lemma range_mul_filter_flatMap {β : Type} (n i j : Nat) (hn : 0 < n) (E : Nat → β) :
    ∀ (M : Nat),
      (((List.range (M * n)).filter (fun t => !(t / n == i || t % n == j))).map E) =
        ((List.range M).filter (fun r => r != i)).flatMap (fun r =>
          ((List.range n).filter (fun c => c != j)).map (fun c => E (r * n + c)))
  | 0 => by simp
  | M + 1 => by
      have ih := range_mul_filter_flatMap n i j hn E M
      rw [show (M + 1) * n = M * n + n from by rw [Nat.succ_mul],
        List.range_add, List.filter_append, List.map_append, ih,
        List.range_succ, List.filter_append, List.flatMap_append]
      congr 1
      rw [List.filter_map, List.map_map]
      have hpred : ((List.range n).filter ((fun t => !(t / n == i || t % n == j)) ∘
            (fun c => M * n + c))) =
          (List.range n).filter (fun c => !(M == i || c == j)) := by
        refine List.filter_congr (fun c hc => ?_)
        have hcn : c < n := List.mem_range.mp hc
        have hdiv : (M * n + c) / n = M := by
          rw [show M * n + c = n * M + c from by rw [Nat.mul_comm], Nat.mul_add_div hn,
            Nat.div_eq_of_lt hcn, Nat.add_zero]
        have hmod : (M * n + c) % n = c := by
          rw [show M * n + c = c + M * n from by omega, Nat.add_mul_mod_self_right]
          exact Nat.mod_eq_of_lt hcn
        simp only [Function.comp, hdiv, hmod]
      rw [hpred]
      by_cases hM : M = i
      · subst hM
        simp
      · rw [List.filter_cons, List.filter_nil]
        have : (M != i) = true := by simp [hM]
        rw [if_pos this, List.flatMap_cons, List.flatMap_nil, List.append_nil]
        have : (List.range n).filter (fun c => !(M == i || c == j)) =
            (List.range n).filter (fun c => c != j) := by
          refine List.filter_congr (fun c _ => ?_)
          simp [hM, bne]
        rw [this]
        rfl

lemma sub_matrix_entries (A : Matrix α) (i j : Nat) (hwf : A.wf) (hn : 0 < A.n) :
    (A.sub_matrix i j).entries =
      ((List.range A.m).filter (fun r => r != i)).flatMap (fun r =>
        ((List.range A.n).filter (fun c => c != j)).map (fun c =>
          A.entries.getD (A.get_index r c) 0)) := by
  show ((A.entries.enum.filter (fun p =>
      let rc := A.get_coords p.1
      !(rc.1 == i || rc.2 == j))).map Prod.snd) = _
  rw [show (fun p : Nat × α =>
        let rc := A.get_coords p.1
        !(rc.1 == i || rc.2 == j)) =
      (fun p : Nat × α => (fun t => !(t / A.n == i || t % A.n == j)) p.1) from rfl]
  rw [show A.entries.enum = A.entries.enumFrom 0 from rfl,
    enumFrom_filter_map_snd (fun t => !(t / A.n == i || t % A.n == j)) 0 A.entries 0,
    ← List.range_eq_range', hwf,
    range_mul_filter_flatMap A.n i j hn (fun t => A.entries.getD (t - 0) 0) A.m]
  simp [Matrix.get_index]

/-- C6: under the stated preconditions, `sub_matrix(i, j)` is an
`(m-1) x (n-1)` matrix holding exactly the entries whose row differs
from `i` and whose column differs from `j`, in the original row-major
relative order (rows in increasing order, and within each surviving
row the surviving columns in increasing order). -/
theorem sub_matrix_spec (A : Matrix α) (i j : Nat) (hwf : A.wf)
    (hm : 1 ≤ A.m) (hn : 1 ≤ A.n) (hi : i < A.m) (hj : j < A.n) :
    (A.sub_matrix i j).m = A.m - 1 ∧ (A.sub_matrix i j).n = A.n - 1 ∧
    (A.sub_matrix i j).entries =
      ((List.range A.m).filter (fun r => r != i)).flatMap (fun r =>
        ((List.range A.n).filter (fun c => c != j)).map (fun c =>
          A.entries.getD (A.get_index r c) 0)) :=
  ⟨rfl, rfl, sub_matrix_entries A i j hwf (by omega)⟩

theorem sub_matrix_spec_witness :
    ((⟨3, 3, [1, 2, 3, 4, 5, 6, 7, 8, 9]⟩ : Matrix ℤ).sub_matrix 0 0).entries = [5, 6, 8, 9] ∧
    ((⟨3, 3, [1, 2, 3, 4, 5, 6, 7, 8, 9]⟩ : Matrix ℤ).sub_matrix 1 2).entries = [1, 2, 7, 8] := by
  have h1 := (sub_matrix_spec (⟨3, 3, [1, 2, 3, 4, 5, 6, 7, 8, 9]⟩ : Matrix ℤ) 0 0
    (by decide) (by decide) (by decide) (by decide) (by decide)).2.2
  have h2 := (sub_matrix_spec (⟨3, 3, [1, 2, 3, 4, 5, 6, 7, 8, 9]⟩ : Matrix ℤ) 1 2
    (by decide) (by decide) (by decide) (by decide) (by decide)).2.2
  exact ⟨by rw [h1]; decide, by rw [h2]; decide⟩

/-! ## Invariant lemmas -/

lemma filter_ne_length : ∀ (k x : Nat), x < k →
    ((List.range k).filter (fun t => t != x)).length = k - 1
  | 0, x, h => absurd h (by omega)
  | k + 1, x, h => by
      rw [List.range_succ, List.filter_append, List.length_append]
      by_cases hx : x = k
      · subst hx
        rw [List.filter_eq_self.mpr (fun a ha => by
          have := List.mem_range.mp ha
          simp only [bne_iff_ne, ne_eq]
          omega)]
        simp
      · rw [filter_ne_length k x (by omega)]
        have hkeep : (k != x) = true := by
          simp only [bne_iff_ne, ne_eq]
          omega
        rw [List.filter_cons, if_pos hkeep, List.filter_nil]
        simp
        omega

lemma flatMap_const_length {β : Type} (f : Nat → List β) (c : Nat)
    (hf : ∀ r, (f r).length = c) : ∀ (L : List Nat), (L.flatMap f).length = L.length * c
  | [] => by simp
  | r :: L => by
      rw [List.flatMap_cons, List.length_append, hf r, flatMap_const_length f c hf L,
        List.length_cons, Nat.succ_mul]
      omega

lemma sub_matrix_wf (A : Matrix α) (i j : Nat) (hwf : A.wf) (hi : i < A.m) (hj : j < A.n) :
    (A.sub_matrix i j).wf := by
  rw [Matrix.wf, sub_matrix_entries A i j hwf (by omega), sub_matrix_m, sub_matrix_n]
  rw [flatMap_const_length _ (A.n - 1) (fun r => by
    rw [List.length_map, filter_ne_length A.n j hj])]
  rw [filter_ne_length A.m i hi]

lemma setEntry_length (l : List α) (idx : Nat) (x : α) (out : List α)
    (h : setEntry l idx x = some out) : out.length = l.length := by
  rw [setEntry] at h
  by_cases hlt : idx < l.length
  · rw [if_pos hlt] at h
    have he := Option.some.inj h
    rw [← he, List.length_set]
  · rw [if_neg hlt] at h
    exact Option.noConfusion h

lemma mulInner_length (B : Matrix α) (resn : Nat) (row : List α) (i : Nat) :
    ∀ acc x out, mulInner B resn row i acc x = some out → out.length = acc.length := by
  intro acc x out h
  rw [mulInner] at h
  cases hc : B.get_col_vec x with
  | none => rw [hc] at h; simp at h
  | some col =>
      rw [hc] at h
      exact setEntry_length acc (i * resn + x) (dotProd row col) out h

lemma foldlM_option_length {β : Type} (f : List β → Nat → Option (List β))
    (hf : ∀ acc x out, f acc x = some out → out.length = acc.length) :
    ∀ (l : List Nat) (acc out : List β), l.foldlM f acc = some out → out.length = acc.length
  | [], acc, out => by
      intro h
      simp at h
      rw [h]
  | x :: l, acc, out => by
      intro h
      rw [List.foldlM_cons] at h
      cases hfa : f acc x with
      | none => rw [hfa] at h; simp at h
      | some mid =>
          rw [hfa] at h
          have h2 : l.foldlM f mid = some out := h
          rw [foldlM_option_length f hf l mid out h2, hf acc x mid hfa]

/-- C8: every matrix produced by the public operations satisfies the
structural invariant `entries.length = m * n`: `new(m, n)`
unconditionally, `sub_matrix(i, j)` under its precondition on a
well-formed matrix, and the successful results of `add` and `mul`. -/
theorem structural_invariant (m n : Nat) (A B : Matrix α) (i j : Nat) :
    (Matrix.new α m n).wf ∧
    (A.wf → i < A.m → j < A.n → (A.sub_matrix i j).wf) ∧
    (∀ C, A.wf → B.wf → A.add B = Except.ok C → C.wf) ∧
    (∀ C, A.mul B = Except.ok C → C.wf) := by
  refine ⟨?_, ?_, ?_, ?_⟩
  · rw [Matrix.wf, Matrix.new]
    simp
  · intro hwf hi hj
    exact sub_matrix_wf A i j hwf hi hj
  · intro C hA hB hC
    rw [Matrix.add] at hC
    by_cases hg : (A.m, A.n) = (B.m, B.n)
    · rw [if_neg (by simp [hg])] at hC
      injection hC with h
      simp only [Prod.mk.injEq] at hg
      rw [Matrix.wf] at hA hB
      rw [← h, Matrix.wf]
      simp only [List.length_map, List.length_zip, hA, hB, hg.1, hg.2, Nat.min_self]
    · rw [if_pos hg] at hC
      exact Except.noConfusion hC
  · intro C hC
    simp only [Matrix.mul] at hC
    by_cases hg : (A.m, A.n) = (B.n, B.m)
    · rw [if_neg (by simp [hg])] at hC
      split at hC
      · rename_i es heq
        injection hC with h
        have hes := foldlM_option_length _ (fun acc x out hout => by
          cases hr : A.get_row_vec x with
          | none => rw [hr] at hout; simp at hout
          | some row =>
              rw [hr] at hout
              exact foldlM_option_length _ (mulInner_length B _ row x) _ acc out hout)
          (List.range A.m) _ es heq
        rw [← h, Matrix.wf]
        simpa [Matrix.new] using hes
      · exact Except.noConfusion hC
    · rw [if_pos hg] at hC
      exact Except.noConfusion hC

theorem structural_invariant_witness :
    (Matrix.new ℤ 2 3).wf ∧ ((⟨2, 2, [1, 2, 3, 4]⟩ : Matrix ℤ).sub_matrix 0 1).wf := by
  have h := structural_invariant (α := ℤ) 2 3 ⟨2, 2, [1, 2, 3, 4]⟩ ⟨2, 2, [5, 6, 7, 8]⟩ 0 1
  exact ⟨h.1, h.2.1 (by decide) (by decide) (by decide)⟩

/-! ## Rendering lemmas -/

lemma spaceSep_cons (a : String) (rest : List String) (h : rest ≠ []) :
    spaceSep (a :: rest) = a ++ " " ++ spaceSep rest := by
  cases rest with
  | nil => exact absurd rfl h
  | cons b l => rfl

lemma concatAll_cons (s : String) (l : List String) : concatAll (s :: l) = s ++ concatAll l :=
  rfl

lemma concatAll_append : ∀ (l1 l2 : List String),
    concatAll (l1 ++ l2) = concatAll l1 ++ concatAll l2
  | [], l2 => by simp [concatAll]
  | s :: l1, l2 => by
      show s ++ concatAll (l1 ++ l2) = (s ++ concatAll l1) ++ concatAll l2
      rw [concatAll_append l1 l2, String.append_assoc]

lemma foldlM_except_append (step : String → Nat → Except MatError String)
    (piece : Nat → String) :
    ∀ (l : List Nat) (acc : String),
      (∀ s x, x ∈ l → step s x = Except.ok (s ++ piece x)) →
      l.foldlM step acc = Except.ok (acc ++ concatAll (l.map piece))
  | [], acc, _ => by simp [concatAll]; rfl
  | x :: l, acc, h => by
      rw [List.foldlM_cons, h acc x (List.mem_cons_self x l)]
      show l.foldlM step (acc ++ piece x) = _
      rw [foldlM_except_append step piece l (acc ++ piece x)
        (fun s y hy => h s y (List.mem_cons_of_mem _ hy))]
      simp [concatAll, String.append_assoc]

lemma fmt_eq_concat (toStr : α → String) (A : Matrix α) (hwf : A.wf) (hn : 0 < A.n) :
    Matrix.fmt toStr A =
      Except.ok (concatAll ((List.range' 1 (A.m * A.n)).map (pieceFn toStr A))) := by
  rw [Matrix.fmt]
  have h := foldlM_except_append
    (fun acc i =>
      match A.entries.get? (i - 1) with
      | none => Except.error MatError.outOfBounds
      | some entry =>
        if A.n = 0 then Except.error MatError.divByZero
        else if i % A.n = 0 then Except.ok (acc ++ toStr entry ++ "\n")
        else Except.ok (acc ++ toStr entry ++ " "))
    (pieceFn toStr A) (List.range' 1 (A.m * A.n)) "" ?_
  · simpa using h
  · intro s x hx
    have hb := List.mem_range'_1.mp hx
    have hlt : x - 1 < A.entries.length := by rw [hwf]; omega
    have hsome : A.entries.get? (x - 1) = some (A.entries.getD (x - 1) 0) := by
      cases hq : A.entries.get? (x - 1) with
      | none => exact absurd (List.get?_eq_none.mp hq) (by omega)
      | some e => rw [List.getD_eq_getElem?_getD, ← List.get?_eq_getElem?, hq]; rfl
    simp only [hsome, pieceFn, if_neg (by omega : ¬ A.n = 0)]
    by_cases hmod : x % A.n = 0
    · simp [hmod, String.append_assoc]
    · simp [hmod, String.append_assoc]

lemma row_concat_aux (toStr : α → String) (A : Matrix α) (r : Nat) :
    ∀ (d : Nat), 1 ≤ d → d ≤ A.n →
      concatAll ((List.range' (r * A.n + (A.n - d) + 1) d).map (pieceFn toStr A)) =
        spaceSep ((List.range' (A.n - d) d).map (fun c =>
          toStr (A.entries.getD (A.get_index r c) 0))) ++ "\n"
  | 0, h1, _ => absurd h1 (by omega)
  | 1, _, hd => by
      have h1 : r * A.n + (A.n - 1) + 1 = (r + 1) * A.n := by rw [Nat.succ_mul]; omega
      simp only [List.range'_one, List.map_cons, List.map_nil, concatAll, spaceSep,
        pieceFn, Matrix.get_index, String.append_empty]
      rw [show r * A.n + (A.n - 1) + 1 - 1 = r * A.n + (A.n - 1) from by omega,
        h1, if_pos (Nat.mul_mod_left (r + 1) A.n)]
  | d + 2, _, hd => by
      have hmod : (r * A.n + (A.n - (d + 2)) + 1) % A.n = A.n - (d + 1) := by
        rw [show r * A.n + (A.n - (d + 2)) + 1 = (A.n - (d + 1)) + r * A.n from by omega,
          Nat.add_mul_mod_self_right]
        exact Nat.mod_eq_of_lt (by omega)
      conv_lhs => rw [List.range'_succ, List.map_cons]
      rw [concatAll_cons]
      rw [show r * A.n + (A.n - (d + 2)) + 1 + 1 = r * A.n + (A.n - (d + 1)) + 1 from by omega]
      rw [row_concat_aux toStr A r (d + 1) (by omega) (by omega)]
      conv_rhs => rw [List.range'_succ, List.map_cons]
      rw [show A.n - (d + 2) + 1 = A.n - (d + 1) from by omega]
      rw [spaceSep_cons _ _ (by simp)]
      rw [pieceFn, hmod, if_neg (by omega),
        show r * A.n + (A.n - (d + 2)) + 1 - 1 = r * A.n + (A.n - (d + 2)) from by omega,
        show A.get_index r (A.n - (d + 2)) = r * A.n + (A.n - (d + 2)) from rfl]
      simp [String.append_assoc]

lemma row_concat (toStr : α → String) (A : Matrix α) (hn : 0 < A.n) (r : Nat) :
    concatAll ((List.range' (r * A.n + 1) A.n).map (pieceFn toStr A)) =
      spaceSep (rowPieces toStr A r) ++ "\n" := by
  have h := row_concat_aux toStr A r A.n (by omega) (le_refl _)
  rw [Nat.sub_self] at h
  rw [show r * A.n + 1 = r * A.n + 0 + 1 from by omega, h, rowPieces, List.range_eq_range']

lemma concat_rows (toStr : α → String) (A : Matrix α) (hn : 0 < A.n) : ∀ (M : Nat),
    concatAll ((List.range' 1 (M * A.n)).map (pieceFn toStr A)) =
      concatAll ((List.range M).map (fun r => spaceSep (rowPieces toStr A r) ++ "\n"))
  | 0 => by simp [concatAll]
  | M + 1 => by
      rw [show (M + 1) * A.n = A.n + M * A.n from by rw [Nat.succ_mul]; omega,
        ← List.range'_append_1 1 (M * A.n) A.n, List.map_append,
        concatAll_append, concat_rows toStr A hn M, List.range_succ, List.map_append,
        concatAll_append]
      congr 1
      rw [show 1 + M * A.n = M * A.n + 1 from by omega, row_concat toStr A hn M]
      simp [concatAll]

/-- C2 (counterexample): rendering the 2x2 matrix `[[1,2],[3,4]]` does
not produce the claimed string `"1 2 \n3 4 \n"` (which has a trailing
space before each newline). -/
theorem fmt_claimed_string_refuted :
    Matrix.fmt fmtEntry (⟨2, 2, [1, 2, 3, 4]⟩ : Matrix ℤ) ≠ Except.ok "1 2 \n3 4 \n" := by
  decide

/-- C2 (amended): rendering the 2x2 matrix `[[1,2],[3,4]]` produces
exactly `"1 2\n3 4\n"`; in general, rendering an `m x n` matrix with
`n ≥ 1` emits `m` lines of `n` space-separated entries in row-major
order, with a space after all but the last entry of a row and a single
newline ending every row, including the final one. -/
theorem fmt_spec (toStr : α → String) (A : Matrix α) (hwf : A.wf) (hn : 0 < A.n) :
    Matrix.fmt toStr A = Except.ok (specRender toStr A) ∧
    Matrix.fmt fmtEntry (⟨2, 2, [1, 2, 3, 4]⟩ : Matrix ℤ) = Except.ok "1 2\n3 4\n" := by
  constructor
  · rw [fmt_eq_concat toStr A hwf hn, specRender, concat_rows toStr A hn A.m]
  · decide

theorem fmt_spec_witness :
    Matrix.fmt fmtEntry (⟨2, 2, [1, 2, 3, 4]⟩ : Matrix ℤ) =
      Except.ok (specRender fmtEntry (⟨2, 2, [1, 2, 3, 4]⟩ : Matrix ℤ)) ∧
    specRender fmtEntry (⟨2, 2, [1, 2, 3, 4]⟩ : Matrix ℤ) = "1 2\n3 4\n" :=
  ⟨(fmt_spec fmtEntry (⟨2, 2, [1, 2, 3, 4]⟩ : Matrix ℤ) (by decide) (by decide)).1,
    by decide⟩

/-- C1 (failing input): `A = [[1,0],[0,1],[1,1]]` (3x2) and
`B = [[1,1,1],[1,1,1]]` (2x3) satisfy the inverted-dimension relation,
yet `mul` leaves every entry of column 2 of the 3x3 result at `0.0`
(the inner loop runs `j` only up to `self.n = 2`), while the dot
product of row 0 of `A` and column 2 of `B` is `1`. -/
theorem mul_drops_result_columns :
    (⟨3, 2, [1, 0, 0, 1, 1, 1]⟩ : Matrix ℤ).mul ⟨2, 3, [1, 1, 1, 1, 1, 1]⟩ =
      Except.ok ⟨3, 3, [1, 1, 0, 1, 1, 0, 2, 2, 0]⟩ ∧
    (⟨3, 2, [1, 0, 0, 1, 1, 1]⟩ : Matrix ℤ).get_row_vec 0 = some [1, 0] ∧
    (⟨2, 3, [1, 1, 1, 1, 1, 1]⟩ : Matrix ℤ).get_col_vec 2 = some [1, 1] ∧
    dotProd [(1 : ℤ), 0] [1, 1] = 1 ∧
    (⟨3, 3, [1, 1, 0, 1, 1, 0, 2, 2, 0]⟩ : Matrix ℤ).entries.getD
        ((⟨3, 3, [1, 1, 0, 1, 1, 0, 2, 2, 0]⟩ : Matrix ℤ).get_index 0 2) 0 = 0 := by
  decide

end MatrixOps
